import Mathlib

/-!
Shallow embedding of `src/app.py` (gander-llm): a CLI pipeline that answers a
question about a brand and prints one JSON payload.  Pure string functions of
the source are translated directly; the external collaborators (HTTP search,
snippet fetch, model generation) are oracles supplied as parameters, and each
fallible collaborator returns `Except`.  Machine details that the claims do
not touch (Unicode classes beyond ASCII in `\s`, `\w`, `str.lower`, and
multi-byte UTF-8 percent-escapes in `urllib.parse.unquote`) are modelled at
the ASCII level, which is the level every claim exercises.
-/

set_option maxRecDepth 20000

namespace Gander

open scoped List

/-- Python `str.startswith` / leading-run test on character lists:
`litStarts p l` is true when `p` occurs as the leading run of `l`. -/
def litStarts : List Char → List Char → Bool
  | [], _ => true
  | _ :: _, [] => false
  | a :: p, b :: l => a == b && litStarts p l

/-- Python `needle in haystack` (substring containment) on character lists. -/
def litSub (n : List Char) : List Char → Bool
  | [] => litStarts n []
  | c :: t => litStarts n (c :: t) || litSub n t

/-- Python `haystack.startswith(needle)` on strings. -/
def py_startswith (s pre : String) : Bool := litStarts pre.data s.data

/-- Python `haystack.endswith(needle)` on strings. -/
def py_endswith (s suf : String) : Bool := litStarts suf.data.reverse s.data.reverse

/-- Python `needle in haystack` on strings. -/
def substrB (needle hay : String) : Bool := litSub needle.data hay.data

/-- Python falsiness of a string (`not s`): true exactly when it is empty. -/
def strFalsy (s : String) : Bool := s.data.isEmpty

/-- De-duplication keeping the first occurrence, as done by
`dict.fromkeys(...)` and by the `seen`-set loops in the source; `seen` is the
accumulator of already-emitted elements. -/
def dedupFirstAux (seen : List String) : List String → List String
  | [] => []
  | x :: xs =>
    if x ∈ seen then dedupFirstAux seen xs
    else x :: dedupFirstAux (x :: seen) xs

/-- `list(dict.fromkeys(l))`: distinct elements in first-occurrence order. -/
def dedupFirst (l : List String) : List String := dedupFirstAux [] l

/-- Characters the regex `[^\s)>\]]` refuses: whitespace, `)`, `>`, `]`
(ASCII whitespace model of `\s`). -/
def stopChar (c : Char) : Bool := c.isWhitespace || c == ')' || c == '>' || c == ']'

/-- The characters of the scheme alternative `https://`. -/
def httpsChars : List Char := ['h', 't', 't', 'p', 's', ':', '/', '/']

/-- The characters of the scheme alternative `http://`. -/
def httpChars : List Char := ['h', 't', 't', 'p', ':', '/', '/']

/-- Length of the scheme matched by `https?://` at the head of `cs`, if any
(the regex alternation tries the longer `https` first). -/
def schemeLen (cs : List Char) : Option Nat :=
  if litStarts httpsChars cs then some 8
  else if litStarts httpChars cs then some 7
  else none

/-- One leftmost match of `https?://[^\s)>\]]+` at the head of `cs`: returns
the matched run and the remainder of the text after it.  The `+` demands at
least one body character. -/
def matchUrlAt (cs : List Char) : Option (List Char × List Char) :=
  match schemeLen cs with
  | none => none
  | some k =>
    let body := (cs.drop k).takeWhile (fun c => !stopChar c)
    if body.isEmpty then none
    else some (cs.take k ++ body, (cs.drop k).dropWhile (fun c => !stopChar c))

/-- `re.findall(r"https?://[^\s)>\]]+", text)`: non-overlapping leftmost
matches, scanning left to right; `fuel` bounds the recursion (one unit per
character consumed suffices). -/
def scanUrlsF : Nat → List Char → List String
  | 0, _ => []
  | fuel + 1, cs =>
    match matchUrlAt cs with
    | some (m, rest) => String.mk m :: scanUrlsF fuel rest
    | none =>
      match cs with
      | [] => []
      | _ :: t => scanUrlsF fuel t

/-- All matches of `https?://[^\s)>\]]+` in reading order. -/
def scanUrls (cs : List Char) : List String := scanUrlsF cs.length cs

/-- Python `u.rstrip(".,;:!?")`. -/
def rstripPunct (s : String) : String :=
  String.mk (s.data.reverse.dropWhile
    (fun c => c == '.' || c == ',' || c == ';' || c == ':' || c == '!' || c == '?')).reverse

/-- `extract_urls` (src/app.py lines 15-25): all http(s) URLs in reading
order, trailing punctuation stripped, de-duplicated keeping first occurrence. -/
def extract_urls (text : String) : List String :=
  dedupFirst ((scanUrls text.data).map rstripPunct)

/-- Scheme characters accepted by `urllib.parse`'s scheme split. -/
def isSchemeChar (c : Char) : Bool := c.isAlphanum || c == '+' || c == '-' || c == '.'

/-- `urlparse`'s scheme split: when the text up to the first `:` is a valid
scheme (leading letter, scheme characters), drop `scheme:`. -/
def afterScheme (s : List Char) : List Char :=
  match s.findIdx? (fun c => c == ':') with
  | none => s
  | some i =>
    if 0 < i && (s.headD ' ').isAlpha && (s.take i).all isSchemeChar then s.drop (i + 1)
    else s

/-- `urlparse(url).netloc`: after the scheme, a leading `//` introduces the
network location, read up to the first `/`, `?` or `#`; otherwise empty. -/
def netlocChars (s : List Char) : List Char :=
  let r := afterScheme s
  if litStarts ['/', '/'] r then
    (r.drop 2).takeWhile (fun c => !(c == '/' || c == '?' || c == '#'))
  else []

/-- Python `str.strip()` on a character list (ASCII whitespace model). -/
def stripWSChars (l : List Char) : List Char :=
  ((l.dropWhile Char.isWhitespace).reverse.dropWhile Char.isWhitespace).reverse

/-- `host_of` (src/app.py lines 27-38): lowercased netloc, with a leading
`www.` removed and leading dots stripped.  (`urlparse(...).netloc` does not
raise, so the `except` branch returning "" is dead.) -/
def host_of (url : String) : String :=
  let h := (stripWSChars (netlocChars url.data)).map Char.toLower
  let h := if litStarts ['w', 'w', 'w', '.'] h then h.drop 4 else h
  String.mk (h.dropWhile (fun c => c == '.'))

/-- `is_owned` (src/app.py lines 40-49): a host is owned when it equals the
brand host or ends with `"." + brand_host`. -/
def is_owned (host brand_host : String) : Bool :=
  if strFalsy host || strFalsy brand_host then false
  else if host == brand_host then true
  else py_endswith host ("." ++ brand_host)

/-- `partition_owned` (src/app.py lines 53-69): split URLs into owned vs
external by `is_owned` on their hosts (the Python loop appends each URL to
exactly one of the two lists, i.e. filters by the predicate and its negation),
then de-duplicate each list preserving order. -/
def partition_owned (urls : List String) (brand_site_url : String) :
    List String × List String :=
  let brand_host := host_of brand_site_url
  (dedupFirst (urls.filter (fun u => is_owned (host_of u) brand_host)),
   dedupFirst (urls.filter (fun u => !is_owned (host_of u) brand_host)))

/-- `make_human_answer` (src/app.py lines 96-104): the placeholder answer. -/
def make_human_answer (brand url question : String) : String :=
  "Here is a quick answer about " ++ brand ++
    ".\n\nFor details, see the official site: " ++ url ++
    "\nYou might also compare third-party perspectives at https://example.org/review.\n"

/-- Python `\w` word character (ASCII model). -/
def wordB (c : Char) : Bool := c.isAlphanum || c == '_'

/-- `re.findall(r"\b" + re.escape(brand) + r"\b", text)`: `re.escape` makes
the brand pattern match the literal brand text, so a match at a position is a
literal occurrence of `brand` flanked by `\b` word boundaries.  `prevW` says
whether the character before the current position is a word character (false
at the start of the text); each emitted element is the matched slice of the
text.  `fuel` bounds the recursion (one unit per character consumed). -/
def mentionScanF (b : List Char) : Nat → Bool → List Char → List (List Char)
  | 0, _, _ => []
  | fuel + 1, prevW, cs =>
    if litStarts b cs && !b.isEmpty && (prevW != wordB (b.headD ' ')) &&
        (wordB (b.getLastD ' ') != wordB ((cs.drop b.length).headD ' ')) then
      cs.take b.length :: mentionScanF b fuel (wordB (b.getLastD ' ')) (cs.drop b.length)
    else
      match cs with
      | [] => []
      | c :: t => mentionScanF b fuel (wordB c) t

/-- `extract_mentions` (src/app.py lines 106-114): each exact, whole-word
occurrence of the brand in the text. -/
def extract_mentions (text brand : String) : List String :=
  if strFalsy brand then []
  else (mentionScanF brand.data text.data.length false text.data).map String.mk

/-- Value of a hex digit, both cases, as used by percent-decoding. -/
def hexVal (c : Char) : Option Nat :=
  if c.isDigit then some (c.toNat - 48)
  else if 'a' ≤ c && c ≤ 'f' then some (c.toNat - 87)
  else if 'A' ≤ c && c ≤ 'F' then some (c.toNat - 55)
  else none

/-- `urllib.parse.unquote` on characters: decode `%XX` escapes, leaving a `%`
not followed by two hex digits in place (ASCII model of the byte decoding). -/
def unquoteChars : List Char → List Char
  | [] => []
  | '%' :: a :: b :: rest =>
    match hexVal a, hexVal b with
    | some x, some y => Char.ofNat (16 * x + y) :: unquoteChars rest
    | _, _ => '%' :: unquoteChars (a :: b :: rest)
  | c :: rest => c :: unquoteChars rest

/-- `re.search(r"[?&]uddg=([^&]+)", u)`: the first `?uddg=` or `&uddg=`
followed by a nonempty run of non-`&` characters; the capture group. -/
def findUddg : List Char → Option (List Char)
  | [] => none
  | c :: rest =>
    if (c == '?' || c == '&') && litStarts ['u', 'd', 'd', 'g', '='] rest then
      let v := (rest.drop 5).takeWhile (fun x => x != '&')
      if v.isEmpty then findUddg rest else some v
    else findUddg rest

/-- The DuckDuckGo redirect-wrapper marker `"duckduckgo.com/l/?"`. -/
def wrapPlain : String := "duckduckgo.com/l/?"

/-- The marker with `/` percent-encoded: `"duckduckgo.com/l/?".replace("/", "%2F")`. -/
def wrapEnc : String := "duckduckgo.com%2Fl%2F?"

/-- The search engine's own domain. -/
def ddgDom : String := "duckduckgo.com"

/-- The redirect-resolution step of `ddg_search` (src/app.py lines 248-256):
if the href contains a DDG redirect-wrapper marker and a `uddg` parameter can
be extracted, replace it by the percent-decoded target; otherwise keep it. -/
def ddgResolve (u : String) : String :=
  if substrB wrapPlain u || substrB wrapEnc u then
    match findUddg u.data with
    | some v => String.mk (unquoteChars v)
    | none => u
  else u

/-- The filtering step of `ddg_search` (src/app.py lines 258-264): drop links
whose host ends with the engine's domain, keep only http(s) links. -/
def ddgKeep (u : String) : Bool :=
  !py_endswith (host_of u) ddgDom &&
    (py_startswith u ("http://") || py_startswith u ("https://"))

/-- The pure post-processing of `ddg_search` (src/app.py lines 245-270) on
the href candidates extracted from the result page: resolve redirects, drop
engine-host and non-http links, de-duplicate keeping first occurrence, and
return at most 10 results. -/
def ddgProcess (candidates : List String) : List String :=
  (dedupFirst ((candidates.map ddgResolve).filter ddgKeep)).take 10

/-- `build_context` (src/app.py lines 309-317). -/
def build_context (snippets : List (String × String)) : String :=
  String.intercalate ("\n") (snippets.map (fun p => "- " ++ p.1 ++ "\n  " ++ p.2))

/-- The command-line arguments of `parse_args` that influence the payload
(src/app.py lines 72-94); integer flags keep Python's `int` type. -/
structure Args where
  brand : String
  url : String
  question : String
  max_searches : Int
  max_sources : Int
  use_model : Int
  model : String
  provider : String
  ollama_model : String
  ground : Int
  search_query : Option String
  snippet_chars : Int
  must_link_site : Bool
  compact_prompt : Int
deriving DecidableEq

/-- Outcomes of the external collaborators for one run.  `searchHrefs i` is
the list of href candidates `re.findall(r'href="(https?://[^"]+)"', resp.text)`
extracted from the page returned by the `i`-th `ddg_search` HTTP request
(`Except.error` = the request raised); `fetch u` is the snippet string
`fetch_snippet` would return for `u` (`Except.error` = it raised); `gen ctx`
is the model answer for context `ctx` (`Except.error` = the model call raised,
including the empty-content `RuntimeError`).  A collaborator is modelled as a
function of its inputs, i.e. deterministic within one run. -/
structure Oracle where
  searchHrefs : Nat → Except Unit (List String)
  fetch : String → Except Unit String
  gen : String → Except Unit String

/-- `metadata.usage` of the payload. -/
structure Usage where
  searches : Nat
  sources_included : Nat
deriving DecidableEq

/-- `metadata.budgets` of the payload. -/
structure Budgets where
  max_searches : Int
  max_sources : Int
deriving DecidableEq

/-- `metadata` of the payload. -/
structure Metadata where
  model : String
  budgets : Budgets
  usage : Usage
deriving DecidableEq

/-- The Answer Payload printed by `main` (src/app.py lines 437-451). -/
structure Payload where
  human_response_markdown : String
  citations : List String
  mentions : List String
  owned_sources : List String
  sources : List String
  metadata : Metadata
deriving DecidableEq

/-- Result of one run of `main`: the payload or the uncaught exception, plus
instrumentation the claims talk about: how many `ddg_search` calls were
issued, and the final value of the `context_urls` local. -/
structure RunOutcome where
  result : Except String Payload
  searchCalls : Nat
  context_urls : List String

/-- The exception raised at src/app.py line 365 when grounding did not run:
`chosen` is only assigned inside the grounding block. -/
def unboundMsg : String := "UnboundLocalError: local variable 'chosen' referenced before assignment"

/-- The exception propagating out of `main` when a `ddg_search` HTTP request
raises (src/app.py lines 331 and 337 are not wrapped in try/except). -/
def searchRaisedMsg : String := "requests exception from ddg_search"

/-- `ddg_search` (src/app.py lines 229-270) given the href candidates of the
fetched result page. -/
def ddg_search_model (hrefs : Except Unit (List String)) : Except Unit (List String) :=
  hrefs.map ddgProcess

/-- The `seen`-set loop of src/app.py lines 347-356: partition the results
into brand-owned and external, skipping duplicates, preserving order. -/
def preferOwnedLoop (brand_host : String) (seen : List String) :
    List String → List String × List String
  | [] => ([], [])
  | u :: rest =>
    if u ∈ seen then preferOwnedLoop brand_host seen rest
    else
      let pr := preferOwnedLoop brand_host (u :: seen) rest
      if is_owned (host_of u) brand_host then (u :: pr.1, pr.2) else (pr.1, u :: pr.2)

/-- src/app.py lines 342-361: choose the sources to fetch from the search
results (owned first, capped at `max_sources`), falling back to the brand
site itself when the search returned nothing. -/
def chooseSources (a : Args) (results : List String) : List String :=
  if !results.isEmpty then
    let pr := preferOwnedLoop (host_of a.url) [] results
    (pr.1 ++ pr.2).take a.max_sources.toNat
  else if 0 < a.max_sources && !strFalsy a.url then [a.url] else []

/-- The fetch loop of src/app.py lines 364-371: fetch a snippet per chosen
URL, skipping URLs whose fetch raised and empty snippets. -/
def fetchPairs (o : Oracle) (chosen : List String) : List (String × String) :=
  chosen.filterMap (fun u =>
    match o.fetch u with
    | Except.error _ => none
    | Except.ok s => if strFalsy s then none else some (u, s))

/-- src/app.py lines 396-419: the answer text and model name.  A model-call
exception (line 412) falls back to the placeholder answer. -/
def answerPair (a : Args) (o : Oracle) (context_text : String) : String × String :=
  if a.use_model ≠ 0 then
    match o.gen context_text with
    | Except.ok t =>
      (t, if a.provider = "ollama" then ("ollama:" ++ a.ollama_model) else a.model)
    | Except.error _ =>
      (make_human_answer a.brand a.url a.question, a.provider ++ " (fallback: placeholder)")
  else (make_human_answer a.brand a.url a.question, "placeholder")

/-- src/app.py lines 422-423: `--must-link-site` appends the brand URL when
it does not occur in the answer. -/
def mustLink (a : Args) (t : String) : String :=
  if a.must_link_site && !strFalsy a.url && !substrB a.url t then
    String.mk (t.data.reverse.dropWhile Char.isWhitespace).reverse ++
      "\n\nFor details, see " ++ a.url ++ "\n"
  else t

/-- src/app.py lines 425-451: mentions, citations, URL classification, and
the payload record. -/
def finalizePayload (a : Args) (human_text : String) (context_urls : List String)
    (model_name : String) (searches_used sources_used : Nat) : Payload :=
  let citations := extract_urls human_text
  let used_urls := dedupFirst (citations ++ context_urls)
  let po := partition_owned used_urls a.url
  { human_response_markdown := human_text
    citations := citations
    mentions := extract_mentions human_text a.brand
    owned_sources := po.1
    sources := po.2
    metadata :=
      { model := model_name
        budgets := { max_searches := a.max_searches, max_sources := a.max_sources }
        usage := { searches := searches_used, sources_included := sources_used } } }

/-- src/app.py lines 363-459, entered with the grounding block's locals.
Lines 380-393 duplicate the fetch loop inside `if pairs:`; with the fetch
collaborator a function of the URL the recomputation yields the same `pairs`,
`context_urls`, `sources_used` and `context_text`, so the bindings below
already denote the final values of those locals. -/
def finishRun (a : Args) (o : Oracle) (searches_used : Nat) (chosen : List String) :
    RunOutcome :=
  let pairs := fetchPairs o chosen
  let context_urls := pairs.map Prod.fst
  let sources_used := pairs.length
  let context_text := if pairs.isEmpty then ("") else build_context pairs
  let hm := answerPair a o context_text
  let human_text := mustLink a hm.1
  { result := Except.ok (finalizePayload a human_text context_urls hm.2 searches_used sources_used)
    searchCalls := 2
    context_urls := context_urls }

/-- `main` (src/app.py lines 319-459).  The two copies of the grounding block
(lines 328-332 and 335-361) each issue a `ddg_search` call; the first block's
`searches_used` is overwritten by the second, and only the second assigns
`chosen`.  When the grounding guard is false, `chosen` is never assigned and
line 365 raises `UnboundLocalError`. -/
def mainModel (a : Args) (o : Oracle) : RunOutcome :=
  if a.ground ≠ 0 ∧ 0 < a.max_searches ∧ 0 < a.max_sources then
    match ddg_search_model (o.searchHrefs 0) with
    | Except.error _ => { result := Except.error searchRaisedMsg, searchCalls := 1, context_urls := [] }
    | Except.ok results1 =>
      let _searches_used_first := if results1.isEmpty then 0 else 1
      match ddg_search_model (o.searchHrefs 1) with
      | Except.error _ => { result := Except.error searchRaisedMsg, searchCalls := 2, context_urls := [] }
      | Except.ok results =>
        let searches_used := if results.isEmpty then 0 else 1
        finishRun a o searches_used (chooseSources a results)
  else { result := Except.error unboundMsg, searchCalls := 0, context_urls := [] }

/-- Is the run's result a payload (no uncaught exception)? -/
def isOkB (r : Except String Payload) : Bool :=
  match r with
  | Except.ok _ => true
  | Except.error _ => false

/-- The payload of a run outcome, defaulting on error runs. -/
def payloadD (r : RunOutcome) : Payload :=
  match r.result with
  | Except.ok p => p
  | Except.error _ =>
    { human_response_markdown := "", citations := [], mentions := [], owned_sources := []
      sources := []
      metadata :=
        { model := "", budgets := { max_searches := 0, max_sources := 0 }
          usage := { searches := 0, sources_included := 0 } } }

/-- The third-party URL hard-coded in the placeholder answer. -/
def reviewUrl : String := "https://example.org/review"

/-- The characters the URL regex matches at that spot of the placeholder
answer (the following `\n` stops the match after the sentence's period). -/
def reviewDotChars : List Char := ("https://example.org/review.").data

/-- The placeholder answer up to (and including) the space before the
hard-coded third-party URL. -/
def ansLead (brand url : String) : String :=
  "Here is a quick answer about " ++ brand ++
    ".\n\nFor details, see the official site: " ++ url ++
    "\nYou might also compare third-party perspectives at "

/-- Arguments of the spec's placeholder scenario: grounding disabled, model
not used, all other flags at their `parse_args` defaults. -/
def acmeArgs : Args :=
  { brand := "Acme", url := "https://acme.com", question := "What do you sell?"
    max_searches := 0, max_sources := 0, use_model := 0, model := "gpt-4o"
    provider := "ollama", ollama_model := "llama3.2", ground := 0
    search_query := none, snippet_chars := 600, must_link_site := false
    compact_prompt := 1 }

/-- The same scenario with grounding requested and positive budgets. -/
def groundedArgs : Args := { acmeArgs with ground := 1, max_searches := 1, max_sources := 2 }

/-- A grounded run with a search budget larger than one. -/
def maxFiveArgs : Args := { acmeArgs with ground := 1, max_searches := 5, max_sources := 2 }

/-- Collaborator outcomes: the search page yields no hrefs, every snippet
fetch and every model call raises. -/
def oracleNone : Oracle :=
  { searchHrefs := fun _ => Except.ok []
    fetch := fun _ => Except.error ()
    gen := fun _ => Except.error () }

/-- A DDG redirect wrapper carrying no `uddg` parameter. -/
def wrapNoUddg : String := "https://duckduckgo.com/l/?foo=1"

/-- A DDG redirect wrapper with a percent-encoded `uddg` target. -/
def wrapUddgEx : String := "https://duckduckgo.com/l/?uddg=https%3A%2F%2Fexample.com%2Fpage&rut=abc"

/-- The decoded target of `wrapUddgEx`. -/
def decodedPage : String := "https://example.com/page"

/-- A URL on the brand's hostname carrying an explicit port. -/
def urlPort : String := "https://example.com:8080/x"

/-- Its network location, port included. -/
def hostPort : String := "example.com:8080"

/-- The brand host of the port example. -/
def brandHostEx : String := "example.com"

/-- The port of the port example. -/
def portEx : String := "8080"

/-- The brand of the mention example. -/
def brandAcme : String := "Acme"

/-- A text with two whole-word brand mentions. -/
def mentionText : String := "Acme makes widgets. Acme ships fast."

/-! ### Basic lemmas about the string and list helpers -/

theorem litStarts_iff : ∀ p l : List Char, litStarts p l = true ↔ p <+: l := by
  intro p
  induction p with
  | nil => intro l; simp [litStarts]
  | cons a p ih =>
    intro l
    cases l with
    | nil => simp [litStarts]
    | cons b l => simp [litStarts, List.cons_prefix_cons, ih, and_comm]

theorem litSub_append_right (n l m : List Char) (h : litSub n m = true) :
    litSub n (l ++ m) = true := by
  induction l with
  | nil => simpa using h
  | cons c t ih => simp [litSub, ih]

theorem mem_dedupFirstAux :
    ∀ (l seen : List String) (a : String),
      a ∈ dedupFirstAux seen l ↔ a ∈ l ∧ a ∉ seen := by
  intro l
  induction l with
  | nil => intro seen a; simp [dedupFirstAux]
  | cons x xs ih =>
    intro seen a
    by_cases hx : x ∈ seen
    · by_cases hax : a = x
      · subst hax; simp [dedupFirstAux, hx, ih]
      · simp [dedupFirstAux, hx, ih, hax]
    · by_cases hax : a = x
      · subst hax; simp [dedupFirstAux, hx, ih]
      · simp [dedupFirstAux, hx, ih, hax]

theorem dedupFirstAux_sublist :
    ∀ (l seen : List String), dedupFirstAux seen l <+ l := by
  intro l
  induction l with
  | nil => intro seen; simp [dedupFirstAux]
  | cons x xs ih =>
    intro seen
    by_cases hx : x ∈ seen
    · simpa [dedupFirstAux, hx] using (ih seen).trans (List.sublist_cons_self x xs)
    · simpa [dedupFirstAux, hx] using List.Sublist.cons₂ x (ih (x :: seen))

theorem nodup_dedupFirstAux :
    ∀ (l seen : List String), (dedupFirstAux seen l).Nodup := by
  intro l
  induction l with
  | nil => intro seen; simp [dedupFirstAux]
  | cons x xs ih =>
    intro seen
    by_cases hx : x ∈ seen
    · simpa [dedupFirstAux, hx] using ih seen
    · have hnotin : x ∉ dedupFirstAux (x :: seen) xs := by
        intro hmem
        exact ((mem_dedupFirstAux xs (x :: seen) x).mp hmem).2 (List.mem_cons_self x seen)
      simpa [dedupFirstAux, hx, List.nodup_cons, hnotin] using ih (x :: seen)

theorem mem_dedupFirst (l : List String) (a : String) : a ∈ dedupFirst l ↔ a ∈ l := by
  simp [dedupFirst, mem_dedupFirstAux]

theorem dedupFirst_sublist (l : List String) : dedupFirst l <+ l :=
  dedupFirstAux_sublist l []

theorem nodup_dedupFirst (l : List String) : (dedupFirst l).Nodup :=
  nodup_dedupFirstAux l []

/-! ### The partition of URLs into owned and external -/

theorem mem_partition_owned_fst (urls : List String) (site u : String) :
    u ∈ (partition_owned urls site).1 ↔
      u ∈ urls ∧ is_owned (host_of u) (host_of site) = true := by
  simp [partition_owned, mem_dedupFirst, List.mem_filter]

theorem mem_partition_owned_snd (urls : List String) (site u : String) :
    u ∈ (partition_owned urls site).2 ↔
      u ∈ urls ∧ is_owned (host_of u) (host_of site) = false := by
  simp [partition_owned, mem_dedupFirst, List.mem_filter]

theorem partition_owned_fst_sublist (urls : List String) (site : String) :
    (partition_owned urls site).1 <+ urls :=
  (dedupFirst_sublist _).trans (List.filter_sublist urls)

theorem partition_owned_snd_sublist (urls : List String) (site : String) :
    (partition_owned urls site).2 <+ urls :=
  (dedupFirst_sublist _).trans (List.filter_sublist urls)

theorem partition_owned_fst_nodup (urls : List String) (site : String) :
    (partition_owned urls site).1.Nodup := nodup_dedupFirst _

theorem partition_owned_snd_nodup (urls : List String) (site : String) :
    (partition_owned urls site).2.Nodup := nodup_dedupFirst _

/-! ### Classification invariants of the emitted payload -/

theorem extract_urls_nodup (text : String) : (extract_urls text).Nodup :=
  nodup_dedupFirst _

theorem finalize_citations (a : Args) (ht : String) (ctx : List String)
    (mn : String) (su si : Nat) :
    (finalizePayload a ht ctx mn su si).citations = extract_urls ht := rfl

theorem finalize_owned (a : Args) (ht : String) (ctx : List String)
    (mn : String) (su si : Nat) :
    (finalizePayload a ht ctx mn su si).owned_sources =
      (partition_owned (dedupFirst (extract_urls ht ++ ctx)) a.url).1 := rfl

theorem finalize_sources (a : Args) (ht : String) (ctx : List String)
    (mn : String) (su si : Nat) :
    (finalizePayload a ht ctx mn su si).sources =
      (partition_owned (dedupFirst (extract_urls ht ++ ctx)) a.url).2 := rfl

theorem finalize_classification (a : Args) (ht : String) (ctx : List String)
    (mn : String) (su si : Nat) :
    (finalizePayload a ht ctx mn su si).citations.Nodup ∧
    (finalizePayload a ht ctx mn su si).owned_sources.Nodup ∧
    (finalizePayload a ht ctx mn su si).sources.Nodup ∧
    (∀ u, (decide (u ∈ (finalizePayload a ht ctx mn su si).owned_sources) &&
           decide (u ∈ (finalizePayload a ht ctx mn su si).sources)) = false) ∧
    (∀ u, (u ∈ (finalizePayload a ht ctx mn su si).owned_sources ∨
           u ∈ (finalizePayload a ht ctx mn su si).sources) ↔
          (u ∈ (finalizePayload a ht ctx mn su si).citations ∨ u ∈ ctx)) ∧
    (finalizePayload a ht ctx mn su si).owned_sources <+
      dedupFirst ((finalizePayload a ht ctx mn su si).citations ++ ctx) ∧
    (finalizePayload a ht ctx mn su si).sources <+
      dedupFirst ((finalizePayload a ht ctx mn su si).citations ++ ctx) := by
  rw [finalize_citations, finalize_owned, finalize_sources]
  refine ⟨extract_urls_nodup ht, partition_owned_fst_nodup _ _, partition_owned_snd_nodup _ _,
    ?_, ?_, partition_owned_fst_sublist _ _, partition_owned_snd_sublist _ _⟩
  · intro u
    by_cases h1 : u ∈ (partition_owned (dedupFirst (extract_urls ht ++ ctx)) a.url).1
    · have ho := ((mem_partition_owned_fst _ _ u).mp h1).2
      have h2 : u ∉ (partition_owned (dedupFirst (extract_urls ht ++ ctx)) a.url).2 := by
        intro hmem
        have := ((mem_partition_owned_snd _ _ u).mp hmem).2
        rw [ho] at this
        exact Bool.true_eq_false.mp this
      simp [h1, h2]
    · simp [h1]
  · intro u
    rw [mem_partition_owned_fst, mem_partition_owned_snd, mem_dedupFirst, List.mem_append]
    cases ho : is_owned (host_of u) (host_of a.url) <;> simp [ho]

/-! ### Budget bounds along the grounded path -/

theorem chooseSources_length (a : Args) (rs : List String)
    (hm : 0 < a.max_sources) : ((chooseSources a rs).length : Int) ≤ a.max_sources := by
  unfold chooseSources
  by_cases hr : rs.isEmpty
  · cases hu : strFalsy a.url <;> simp [hr, hu, hm] <;> omega
  · simp [hr, List.length_take]
    omega

theorem fetchPairs_length (o : Oracle) (chosen : List String) :
    (fetchPairs o chosen).length ≤ chosen.length :=
  List.length_filterMap_le _ chosen

/-- Inversion of a successful run: success only happens on the grounded path,
through `finishRun`, with `searches_used ≤ 1` and at most `max_sources`
chosen URLs. -/
theorem mainModel_ok_inv {a : Args} {o : Oracle} {p : Payload}
    (h : (mainModel a o).result = Except.ok p) :
    ∃ su chosen, mainModel a o = finishRun a o su chosen ∧ su ≤ 1 ∧
      0 < a.max_searches ∧ 0 < a.max_sources ∧
      ((chosen.length : Int) ≤ a.max_sources) := by
  by_cases hg : a.ground ≠ 0 ∧ 0 < a.max_searches ∧ 0 < a.max_sources
  · cases h0 : ddg_search_model (o.searchHrefs 0) with
    | error e => simp [mainModel, hg, h0] at h
    | ok r1 =>
      cases h1 : ddg_search_model (o.searchHrefs 1) with
      | error e => simp [mainModel, hg, h0, h1] at h
      | ok rs =>
        refine ⟨if rs.isEmpty then 0 else 1, chooseSources a rs, ?_, ?_,
          hg.2.1, hg.2.2, chooseSources_length a rs hg.2.2⟩
        · simp [mainModel, hg, h0, h1]
        · by_cases hre : rs.isEmpty <;> simp [hre]
  · simp [mainModel, hg] at h

/-- The payload of `finishRun`, read off its definition. -/
theorem finishRun_result (a : Args) (o : Oracle) (su : Nat) (chosen : List String) :
    (finishRun a o su chosen).result =
      Except.ok (finalizePayload a
        (mustLink a (answerPair a o (if (fetchPairs o chosen).isEmpty then ("")
            else build_context (fetchPairs o chosen))).1)
        ((fetchPairs o chosen).map Prod.fst)
        (answerPair a o (if (fetchPairs o chosen).isEmpty then ("")
            else build_context (fetchPairs o chosen))).2
        su (fetchPairs o chosen).length) := rfl

/-- The `context_urls` local of `finishRun`, read off its definition. -/
theorem finishRun_context_urls (a : Args) (o : Oracle) (su : Nat) (chosen : List String) :
    (finishRun a o su chosen).context_urls = (fetchPairs o chosen).map Prod.fst := rfl

theorem finalize_usage_searches (a : Args) (ht : String) (ctx : List String)
    (mn : String) (su si : Nat) :
    (finalizePayload a ht ctx mn su si).metadata.usage.searches = su := rfl

theorem finalize_usage_sources (a : Args) (ht : String) (ctx : List String)
    (mn : String) (su si : Nat) :
    (finalizePayload a ht ctx mn su si).metadata.usage.sources_included = si := rfl

theorem finalize_budget_searches (a : Args) (ht : String) (ctx : List String)
    (mn : String) (su si : Nat) :
    (finalizePayload a ht ctx mn su si).metadata.budgets.max_searches = a.max_searches := rfl

theorem finalize_budget_sources (a : Args) (ht : String) (ctx : List String)
    (mn : String) (su si : Nat) :
    (finalizePayload a ht ctx mn su si).metadata.budgets.max_sources = a.max_sources := rfl

/-! ### Every element scanned out of the brand-mention regex is the brand -/

theorem mentionScanF_mem (b : List Char) :
    ∀ (fuel : Nat) (prevW : Bool) (cs l : List Char),
      l ∈ mentionScanF b fuel prevW cs → l = b := by
  intro fuel
  induction fuel with
  | zero => intro prevW cs l hl; simp [mentionScanF] at hl
  | succ n ih =>
    intro prevW cs l hl
    simp only [mentionScanF] at hl
    by_cases hcond : (litStarts b cs && !b.isEmpty && (prevW != wordB (b.headD ' ')) &&
        (wordB (b.getLastD ' ') != wordB ((cs.drop b.length).headD ' '))) = true
    · rw [if_pos hcond] at hl
      rcases List.mem_cons.mp hl with hhead | htail
      · have hpre : b <+: cs := by
          have h1 : litStarts b cs = true := by
            simp only [Bool.and_eq_true] at hcond
            exact hcond.1.1.1
          exact (litStarts_iff b cs).mp h1
        rw [hhead]
        exact (List.prefix_iff_eq_take.mp hpre).symm
      · exact ih _ _ _ htail
    · rw [if_neg hcond] at hl
      cases cs with
      | nil => simp at hl
      | cons c t => exact ih _ _ _ hl

/-! ### A port-carrying host is never classified as owned -/

theorem is_owned_port_false (bh p : String) (hc : ':' ∉ bh.data)
    (hp : p.data ≠ []) (hd : ∀ c ∈ p.data, c.isDigit = true) :
    is_owned (bh ++ ":" ++ p) bh = false := by
  have hcolon : (":" : String).data = [':'] := rfl
  have hdata : (bh ++ ":" ++ p).data = bh.data ++ ':' :: p.data := by
    simp [String.data_append, hcolon]
  have hX : strFalsy (bh ++ ":" ++ p) = false := by
    simp [strFalsy, hdata]
  cases hbh : strFalsy bh with
  | true => simp [is_owned, hX, hbh]
  | false =>
    cases hbeq : ((bh ++ ":" ++ p) == bh) with
    | true =>
      exfalso
      have heq := eq_of_beq hbeq
      have hlen := congrArg (fun s => s.data.length) heq
      simp only [hdata, List.length_append, List.length_cons] at hlen
      omega
    | false =>
      cases hpe : py_endswith (bh ++ ":" ++ p) ("." ++ bh) with
      | false => simp [is_owned, hX, hbh, hbeq, hpe]
      | true =>
        exfalso
        have h1 : ("." ++ bh).data.reverse <+: (bh ++ ":" ++ p).data.reverse :=
          (litStarts_iff _ _).mp hpe
        have h2 : ("." ++ bh).data <:+ (bh ++ ":" ++ p).data := List.reverse_prefix.mp h1
        have hdot : ("." ++ bh).data = '.' :: bh.data := by
          have hd1 : ("." : String).data = ['.'] := rfl
          simp [String.data_append, hd1]
        rw [hdot, hdata] at h2
        have hsuf2 : ':' :: p.data <:+ bh.data ++ ':' :: p.data := List.suffix_append _ _
        rcases List.suffix_or_suffix_of_suffix h2 hsuf2 with hcase | hcase
        · rcases List.suffix_cons_iff.mp hcase with heq2 | htail
          · injection heq2 with h3 h4
            exact absurd h3 (by decide)
          · have hmem : '.' ∈ p.data := htail.subset (List.mem_cons_self _ _)
            exact absurd (hd '.' hmem) (by decide)
        · rcases List.suffix_cons_iff.mp hcase with heq2 | htail
          · injection heq2 with h3 h4
            exact absurd h3 (by decide)
          · exact hc (htail.subset (List.mem_cons_self _ _))

/-! ### The hard-coded review URL survives the URL scan of any placeholder text -/

theorem dropWhile_append_left {α : Type} {q : α → Bool} {xs ys : List α}
    (h : xs.dropWhile q ≠ []) :
    (xs ++ ys).dropWhile q = xs.dropWhile q ++ ys := by
  rw [List.dropWhile_append]
  simp [h]

theorem schemeLen_eq_some {cs : List Char} {k : Nat} (h : schemeLen cs = some k) :
    (k = 8 ∧ httpsChars <+: cs) ∨ (k = 7 ∧ httpChars <+: cs) := by
  unfold schemeLen at h
  by_cases h1 : litStarts httpsChars cs = true
  · rw [if_pos h1] at h
    exact Or.inl ⟨(Option.some.inj h).symm, (litStarts_iff _ _).mp h1⟩
  · rw [if_neg h1] at h
    by_cases h2 : litStarts httpChars cs = true
    · rw [if_pos h2] at h
      exact Or.inr ⟨(Option.some.inj h).symm, (litStarts_iff _ _).mp h2⟩
    · rw [if_neg h2] at h
      exact absurd h (by simp)

theorem scheme_lt_of_space {sch p L : List Char} (hsch : ' ' ∉ sch)
    (hpre : sch <+: p ++ L) (hsp : ' ' ∈ p) : sch.length < p.length := by
  by_contra hle
  push_neg at hle
  rcases List.prefix_or_prefix_of_prefix (List.prefix_append p L) hpre with hc | hc
  · exact hsch (hc.subset hsp)
  · have heq := hc.eq_of_length_le hle
    rw [heq] at hsch
    exact hsch hsp

/-- A leftmost URL match inside `p ++ L`, where `p` ends with a space, stops
strictly inside `p`: the remainder is again `prefix ++ L` for a shorter
prefix that still ends with a space. -/
theorem matchUrlAt_append_split {p L m rest : List Char}
    (hp : p.getLast? = some ' ')
    (hm : matchUrlAt (p ++ L) = some (m, rest)) :
    ∃ q', rest = q' ++ L ∧ q'.getLast? = some ' ' ∧ q'.length < p.length := by
  obtain ⟨ys, rfl⟩ := List.getLast?_eq_some_iff.mp hp
  simp only [matchUrlAt] at hm
  cases hk : schemeLen ((ys ++ [' ']) ++ L) with
  | none => rw [hk] at hm; exact absurd hm (by simp)
  | some k =>
    rw [hk] at hm
    simp only [] at hm
    have hsp : ' ' ∈ ys ++ [' '] := List.mem_append_right ys (by simp)
    have hklt : k < (ys ++ [' ']).length := by
      rcases schemeLen_eq_some hk with ⟨rfl, hpre⟩ | ⟨rfl, hpre⟩
      · exact scheme_lt_of_space (by decide) hpre hsp
      · exact scheme_lt_of_space (by decide) hpre hsp
    have hk7 : 7 ≤ k := by
      rcases schemeLen_eq_some hk with ⟨rfl, _⟩ | ⟨rfl, _⟩ <;> omega
    have hkys : k ≤ ys.length := by
      have := hklt
      simp [List.length_append] at this
      omega
    have hdrop1 : ((ys ++ [' ']) ++ L).drop k = (ys ++ [' ']).drop k ++ L :=
      List.drop_append_of_le_length (Nat.le_of_lt hklt)
    have hdrop2 : (ys ++ [' ']).drop k = ys.drop k ++ [' '] :=
      List.drop_append_of_le_length hkys
    have hfail : (ys.drop k ++ [' ']).dropWhile (fun c => !stopChar c) ≠ [] := by
      intro h0
      have := List.dropWhile_eq_nil_iff.mp h0 ' ' (List.mem_append_right _ (by simp))
      simp [stopChar] at this
    by_cases hbody : (((ys ++ [' ']) ++ L).drop k |>.takeWhile (fun c => !stopChar c)).isEmpty = true
    · rw [if_pos hbody] at hm
      exact absurd hm (by simp)
    · rw [if_neg hbody] at hm
      have hrest : rest = (((ys ++ [' ']) ++ L).drop k).dropWhile (fun c => !stopChar c) :=
        (congrArg Prod.snd (Option.some.inj hm)).symm
      rw [hdrop1, hdrop2, dropWhile_append_left hfail] at hrest
      refine ⟨(ys.drop k ++ [' ']).dropWhile (fun c => !stopChar c), hrest, ?_, ?_⟩
      · obtain ⟨t, ht⟩ := List.dropWhile_suffix (l := ys.drop k ++ [' ']) (fun c => !stopChar c)
        rcases List.eq_nil_or_concat ((ys.drop k ++ [' ']).dropWhile (fun c => !stopChar c)) with
          h0 | ⟨zs, c, hzc⟩
        · exact absurd h0 hfail
        · rw [List.concat_eq_append] at hzc
          have hglc : (t ++ (zs ++ [c])).getLast? = some c := by
            rw [← List.append_assoc]
            exact List.getLast?_concat _
          rw [hzc] at ht
          rw [ht] at hglc
          have : some c = some ' ' := by rw [← hglc, List.getLast?_concat]
          rw [hzc, Option.some.inj this, List.getLast?_concat]
      · have hle := (List.dropWhile_suffix (l := ys.drop k ++ [' '])
          (fun c => !stopChar c)).length_le
        have h1 : (ys.drop k).length = ys.length - k := List.length_drop k ys
        simp [List.length_append] at hle ⊢
        omega

theorem scanUrlsF_succ_some {fuel : Nat} {cs m rest : List Char}
    (h : matchUrlAt cs = some (m, rest)) :
    scanUrlsF (fuel + 1) cs = String.mk m :: scanUrlsF fuel rest := by
  simp [scanUrlsF, h]

theorem scanUrlsF_succ_none_cons {fuel : Nat} {c : Char} {t : List Char}
    (h : matchUrlAt (c :: t) = none) :
    scanUrlsF (fuel + 1) (c :: t) = scanUrlsF fuel t := by
  simp [scanUrlsF, h]

theorem matchUrlAt_reviewDot (s : List Char) :
    matchUrlAt (reviewDotChars ++ '\n' :: s) = some (reviewDotChars, '\n' :: s) := rfl

/-- Scanning any text of the form `p ++ "https://example.org/review." ++ "\n" ++ s`
where `p` is empty or ends with a space finds the review URL (with the
sentence's period, stripped later): no match starting inside `p` can cross
the space, so the scanner eventually reaches the URL. -/
theorem review_mem_scanUrlsF :
    ∀ (fuel : Nat) (p s : List Char),
      (p ++ (reviewDotChars ++ '\n' :: s)).length ≤ fuel →
      (p = [] ∨ p.getLast? = some ' ') →
      String.mk reviewDotChars ∈ scanUrlsF fuel (p ++ (reviewDotChars ++ '\n' :: s)) := by
  intro fuel
  induction fuel with
  | zero =>
    intro p s hlen hinv
    exfalso
    have h27 : reviewDotChars.length = 27 := rfl
    simp [List.length_append, h27] at hlen
  | succ n ih =>
    intro p s hlen hinv
    rcases hinv with rfl | hp
    · rw [List.nil_append, scanUrlsF_succ_some (matchUrlAt_reviewDot s)]
      exact List.mem_cons_self _ _
    · cases hm : matchUrlAt (p ++ (reviewDotChars ++ '\n' :: s)) with
      | some pr =>
        obtain ⟨m, rest⟩ := pr
        obtain ⟨q', hrest, hq, hqlt⟩ := matchUrlAt_append_split hp hm
        rw [scanUrlsF_succ_some hm, hrest]
        refine List.mem_cons_of_mem _ (ih q' s ?_ (Or.inr hq))
        simp only [List.length_append, List.length_cons] at hlen ⊢
        omega
      | none =>
        cases p with
        | nil => simp at hp
        | cons c t =>
          rw [List.cons_append] at hm ⊢
          rw [scanUrlsF_succ_none_cons hm]
          refine ih t s ?_ ?_
          · simp only [List.length_append, List.length_cons] at hlen ⊢
            omega
          · cases t with
            | nil => exact Or.inl rfl
            | cons d u =>
              rw [List.getLast?_cons_cons] at hp
              exact Or.inr hp

/-- The review URL (period stripped) is among the extracted URLs of any text
of the scanned form. -/
theorem review_mem_extract_urls (p s : List Char)
    (hp : p = [] ∨ p.getLast? = some ' ') :
    reviewUrl ∈ extract_urls (String.mk (p ++ (reviewDotChars ++ '\n' :: s))) := by
  unfold extract_urls scanUrls
  apply (mem_dedupFirst _ _).mpr
  refine List.mem_map.mpr ⟨String.mk reviewDotChars, ?_, by decide⟩
  exact review_mem_scanUrlsF _ p s (Nat.le_refl _) hp

theorem make_human_answer_data (b u q : String) :
    (make_human_answer b u q).data =
      (ansLead b u).data ++ (reviewDotChars ++ '\n' :: []) := by
  simp [make_human_answer, ansLead, String.data_append, List.append_assoc, reviewDotChars]

theorem ansLead_data_getLast (b u : String) :
    (ansLead b u).data.getLast? = some ' ' := by
  have haux :
      ("\nYou might also compare third-party perspectives at " : String).data.getLast? =
        some ' ' := by decide
  simp only [ansLead, String.data_append, List.getLast?_append, haux, Option.or_some]

theorem review_mem_make_human_answer (b u q : String) :
    reviewUrl ∈ extract_urls (make_human_answer b u q) := by
  have hmk : make_human_answer b u q =
      String.mk ((ansLead b u).data ++ (reviewDotChars ++ '\n' :: [])) :=
    String.ext (make_human_answer_data b u q)
  rw [hmk]
  exact review_mem_extract_urls _ _ (Or.inr (ansLead_data_getLast b u))

/-- The review URL stays among the extracted URLs after the
`--must-link-site` post-edit of the placeholder answer. -/
theorem review_mem_mustLink (a : Args) (b u q : String) :
    reviewUrl ∈ extract_urls (mustLink a (make_human_answer b u q)) := by
  have hgen : ∀ (t : String) (s : List Char),
      t.data = (ansLead b u).data ++ (reviewDotChars ++ '\n' :: s) →
      reviewUrl ∈ extract_urls t := by
    intro t s ht
    have heq : t = String.mk ((ansLead b u).data ++ (reviewDotChars ++ '\n' :: s)) :=
      String.ext ht
    rw [heq]
    exact review_mem_extract_urls _ s (Or.inr (ansLead_data_getLast b u))
  unfold mustLink
  by_cases hcond : (a.must_link_site && !strFalsy a.url &&
      !substrB a.url (make_human_answer b u q)) = true
  · rw [if_pos hcond]
    have h2 : reviewDotChars.reverse.dropWhile Char.isWhitespace = reviewDotChars.reverse := by
      decide
    have h3 : reviewDotChars.reverse.dropWhile Char.isWhitespace ≠ [] := by decide
    have hrs : ((make_human_answer b u q).data.reverse.dropWhile Char.isWhitespace).reverse
        = (ansLead b u).data ++ reviewDotChars := by
      rw [make_human_answer_data b u q]
      simp only [List.reverse_append, List.reverse_cons, List.reverse_nil, List.nil_append,
        List.cons_append, List.append_assoc]
      rw [List.dropWhile_cons]
      simp only [show Char.isWhitespace '\n' = true from by decide, if_true]
      rw [dropWhile_append_left h3, h2]
      simp [List.reverse_append, List.reverse_reverse]
    apply hgen _ ('\n' :: (("For details, see " : String).data ++ (a.url.data ++ ('\n' :: []))))
    have hl4 : ("\n\nFor details, see " : String).data =
        '\n' :: '\n' :: ("For details, see " : String).data := by decide
    have hnl : ("\n" : String).data = '\n' :: [] := by decide
    simp [String.data_append, hrs, hl4, hnl, List.append_assoc]
  · rw [if_neg hcond]
    exact review_mem_make_human_answer b u q

/-! ### The search post-processing never returns an engine-host link -/

theorem ddgProcess_no_engine_host (cs : List String) (u : String)
    (hu : u ∈ ddgProcess cs) : py_endswith (host_of u) ddgDom = false := by
  have h1 : u ∈ dedupFirst ((cs.map ddgResolve).filter ddgKeep) :=
    List.take_subset _ _ hu
  have h2 := (mem_dedupFirst _ u).mp h1
  have h3 := List.of_mem_filter h2
  simp only [ddgKeep, Bool.and_eq_true, Bool.not_eq_true'] at h3
  exact h3.1

/-- When the model is not used, or every generation call raises, the answer
text is the placeholder. -/
theorem answerPair_placeholder (a : Args) (o : Oracle) (c : String)
    (hyp : a.use_model = 0 ∨ (∀ x, o.gen x = Except.error ())) :
    (answerPair a o c).1 = make_human_answer a.brand a.url a.question := by
  rcases hyp with h0 | hg
  · simp [answerPair, h0]
  · by_cases hum : a.use_model ≠ 0
    · simp [answerPair, hum, hg]
    · simp [answerPair, hum]

/-! ### The claims -/

/-- C1: the claim says `main` terminates normally with a complete payload for
every input and collaborator outcome, in particular with grounding disabled.
The code violates this: when the grounding guard is false (here: ground flag
0), the local `chosen` is never assigned and the fetch loop at src/app.py
line 365 raises `UnboundLocalError`, which propagates to the caller. -/
theorem C1_main_raises_when_grounding_disabled (a : Args) (o : Oracle)
    (h : a.ground = 0) : (mainModel a o).result = Except.error unboundMsg := by
  have hg : ¬(a.ground ≠ 0 ∧ 0 < a.max_searches ∧ 0 < a.max_sources) := by
    simp [h]
  simp [mainModel, hg]

theorem C1_witness :
    acmeArgs.ground = 0 ∧ (mainModel acmeArgs oracleNone).result = Except.error unboundMsg :=
  ⟨rfl, C1_main_raises_when_grounding_disabled acmeArgs oracleNone rfl⟩

/-- C2: the claim says the grounding-disabled, model-unused scenario
(brand "Acme", url "https://acme.com") emits a placeholder payload.  The code
instead raises `UnboundLocalError` on `chosen` before any payload is built. -/
theorem C2_placeholder_scenario_raises :
    (mainModel acmeArgs oracleNone).result = Except.error unboundMsg := rfl

/-- C3: the claim says a grounded run issues exactly one search call.  The
grounding block is duplicated (src/app.py lines 328-332 and 335-361), so
every grounded run that returns a payload issued exactly two `ddg_search`
calls, regardless of the budgets. -/
theorem C3_grounded_run_issues_two_searches (a : Args) (o : Oracle)
    (hg : a.ground ≠ 0 ∧ 0 < a.max_searches ∧ 0 < a.max_sources)
    (hok : isOkB (mainModel a o).result = true) :
    (mainModel a o).searchCalls = 2 := by
  cases hres : (mainModel a o).result with
  | error e => rw [hres] at hok; simp [isOkB] at hok
  | ok p =>
    obtain ⟨su, ch, heq, -, -, -, -⟩ := mainModel_ok_inv hres
    rw [heq]
    rfl

theorem C3_witness :
    (groundedArgs.ground ≠ 0 ∧ 0 < groundedArgs.max_searches ∧
      0 < groundedArgs.max_sources) ∧
    isOkB (mainModel groundedArgs oracleNone).result = true ∧
    (mainModel groundedArgs oracleNone).searchCalls = 2 :=
  ⟨⟨by decide, by decide, by decide⟩, rfl,
    C3_grounded_run_issues_two_searches groundedArgs oracleNone
      ⟨by decide, by decide, by decide⟩ rfl⟩

/-- C4 (amended): in every emitted payload the usage counters respect the
budgets: `sources_included ≤ max_sources`, `searches ≤ 1` and
`searches ≤ max_searches`.  (The claim's further conjunct
`max_searches ≤ 1` is false: the budget is whatever was configured, see the
counterexample.) -/
theorem C4_usage_within_budgets (a : Args) (o : Oracle) (p : Payload)
    (h : (mainModel a o).result = Except.ok p) :
    ((p.metadata.usage.sources_included : Int) ≤ p.metadata.budgets.max_sources) ∧
    p.metadata.usage.searches ≤ 1 ∧
    ((p.metadata.usage.searches : Int) ≤ p.metadata.budgets.max_searches) := by
  obtain ⟨su, chosen, heq, hsu, hms, hmsrc, hlen⟩ := mainModel_ok_inv h
  rw [heq, finishRun_result] at h
  have hp := Except.ok.inj h
  subst hp
  have hf : (fetchPairs o chosen).length ≤ chosen.length := fetchPairs_length o chosen
  rw [finalize_usage_sources, finalize_budget_sources, finalize_usage_searches,
    finalize_budget_searches]
  refine ⟨?_, hsu, ?_⟩ <;> omega

theorem C4_witness :
    ((payloadD (mainModel groundedArgs oracleNone)).metadata.usage.sources_included : Int) ≤
      (payloadD (mainModel groundedArgs oracleNone)).metadata.budgets.max_sources ∧
    (payloadD (mainModel groundedArgs oracleNone)).metadata.usage.searches ≤ 1 ∧
    ((payloadD (mainModel groundedArgs oracleNone)).metadata.usage.searches : Int) ≤
      (payloadD (mainModel groundedArgs oracleNone)).metadata.budgets.max_searches :=
  C4_usage_within_budgets groundedArgs oracleNone _ rfl

/-- C4 counterexample: a run configured with `--max-searches 5` emits a
payload whose `budgets.max_searches` is 5, so the claim's chain
`usage.searches ≤ budgets.max_searches ≤ 1` fails in its second inequality. -/
theorem C4_counterexample :
    isOkB (mainModel maxFiveArgs oracleNone).result = true ∧
    (payloadD (mainModel maxFiveArgs oracleNone)).metadata.budgets.max_searches = 5 ∧
    decide ((5 : Int) ≤ 1) = false :=
  ⟨rfl, rfl, rfl⟩

/-- C5 (amended): the redirect-resolution step decodes `uddg` targets (last
conjunct); when decoding fails the raw wrapper is kept as the candidate
(second conjunct), but the subsequent engine-host filter drops every link
whose host ends with the engine's domain (first conjunct), so a canonical
wrapper whose decoding failed does not appear in the returned list (third
conjunct). -/
theorem C5_redirect_processing :
    (∀ cs u, u ∈ ddgProcess cs → py_endswith (host_of u) ddgDom = false) ∧
    ddgResolve wrapNoUddg = wrapNoUddg ∧
    ddgProcess [wrapNoUddg] = [] ∧
    ddgProcess [wrapUddgEx] = [decodedPage] :=
  ⟨fun cs u hu => ddgProcess_no_engine_host cs u hu, by decide, by decide, by decide⟩

theorem C5_witness : py_endswith (host_of decodedPage) ddgDom = false :=
  C5_redirect_processing.1 [wrapUddgEx] decodedPage (by decide)

/-- C5 counterexample: this href matches the wrapper pattern, its `uddg`
extraction fails, and the returned list is empty — the raw wrapper is NOT
kept in the returned list, contrary to the claim. -/
theorem C5_counterexample :
    substrB wrapPlain wrapNoUddg = true ∧ findUddg wrapNoUddg.data = none ∧
    ddgProcess [wrapNoUddg] = [] :=
  ⟨by decide, by decide, by decide⟩

/-- C6: in every emitted payload, `citations`, `owned_sources` and `sources`
are duplicate-free; `owned_sources` and `sources` are disjoint; their union
is exactly `citations ∪ context_urls`; and both preserve the first-seen
order of the de-duplicated used-URL list. -/
theorem C6_classification (a : Args) (o : Oracle) (p : Payload)
    (h : (mainModel a o).result = Except.ok p) :
    p.citations.Nodup ∧ p.owned_sources.Nodup ∧ p.sources.Nodup ∧
    (∀ u, (decide (u ∈ p.owned_sources) && decide (u ∈ p.sources)) = false) ∧
    (∀ u, (u ∈ p.owned_sources ∨ u ∈ p.sources) ↔
      (u ∈ p.citations ∨ u ∈ (mainModel a o).context_urls)) ∧
    p.owned_sources <+ dedupFirst (p.citations ++ (mainModel a o).context_urls) ∧
    p.sources <+ dedupFirst (p.citations ++ (mainModel a o).context_urls) := by
  obtain ⟨su, chosen, heq, -, -, -, -⟩ := mainModel_ok_inv h
  rw [heq, finishRun_result] at h
  rw [heq, finishRun_context_urls]
  have hp := Except.ok.inj h
  subst hp
  exact finalize_classification a _ _ _ su _

theorem C6_witness :
    (payloadD (mainModel groundedArgs oracleNone)).citations.Nodup :=
  (C6_classification groundedArgs oracleNone _ rfl).1

/-- C7: `partition_owned` is a total partition: each input URL is a member of
exactly one of the two outputs, and each output is a sublist of the input
(so relative order is preserved). -/
theorem C7_partition_total (urls : List String) (site u : String) :
    ((u ∈ (partition_owned urls site).1 ∨ u ∈ (partition_owned urls site).2) ↔ u ∈ urls) ∧
    ((decide (u ∈ (partition_owned urls site).1) &&
      decide (u ∈ (partition_owned urls site).2)) = false) ∧
    (partition_owned urls site).1 <+ urls ∧ (partition_owned urls site).2 <+ urls := by
  refine ⟨?_, ?_, partition_owned_fst_sublist urls site, partition_owned_snd_sublist urls site⟩
  · rw [mem_partition_owned_fst, mem_partition_owned_snd]
    cases ho : is_owned (host_of u) (host_of site) <;> simp [ho]
  · by_cases h1 : u ∈ (partition_owned urls site).1
    · have ho := ((mem_partition_owned_fst urls site u).mp h1).2
      have h2 : u ∉ (partition_owned urls site).2 := by
        intro hm
        have hf := ((mem_partition_owned_snd urls site u).mp hm).2
        rw [ho] at hf
        exact Bool.noConfusion hf
      simp [h1, h2]
    · simp [h1]

/-- C8: the placeholder answer always cites `https://example.org/review`:
the URL is extracted from it for every brand/url/question, and every run
that emits a payload with the model unused (or generation always raising,
i.e. the fallback) has it among the payload's citations. -/
theorem C8_placeholder_cites_review :
    (∀ b u q, reviewUrl ∈ extract_urls (make_human_answer b u q)) ∧
    (∀ (a : Args) (o : Oracle) (p : Payload),
      (a.use_model = 0 ∨ (∀ x, o.gen x = Except.error ())) →
      (mainModel a o).result = Except.ok p →
      reviewUrl ∈ p.citations) := by
  refine ⟨review_mem_make_human_answer, ?_⟩
  intro a o p hyp h
  obtain ⟨su, chosen, heq, -, -, -, -⟩ := mainModel_ok_inv h
  rw [heq, finishRun_result] at h
  have hp := Except.ok.inj h
  subst hp
  rw [finalize_citations, answerPair_placeholder a o _ hyp]
  exact review_mem_mustLink a a.brand a.url a.question

theorem C8_witness :
    acmeArgs.use_model = 0 ∧
    reviewUrl ∈ (payloadD (mainModel groundedArgs oracleNone)).citations :=
  ⟨rfl, C8_placeholder_cites_review.2 groundedArgs oracleNone _ (Or.inl rfl) rfl⟩

/-- C9: `host_of` keeps an explicit port in the network location, and a host
of the form `brand_host:port` (brand host without a colon, nonempty all-digit
port) is never classified as owned. -/
theorem C9_port_not_owned (bh p : String) (hc : ':' ∉ bh.data) (hp : p.data ≠ [])
    (hd : ∀ c ∈ p.data, c.isDigit = true) :
    host_of urlPort = hostPort ∧ is_owned (bh ++ ":" ++ p) bh = false :=
  ⟨by decide, is_owned_port_false bh p hc hp hd⟩

theorem C9_witness :
    (':' ∉ brandHostEx.data) ∧ brandHostEx ≠ "" ∧ portEx.data ≠ [] ∧
    (∀ c ∈ portEx.data, c.isDigit = true) ∧
    (host_of urlPort = hostPort ∧
      is_owned (brandHostEx ++ ":" ++ portEx) brandHostEx = false) :=
  ⟨by decide, by decide, by decide, by decide,
    C9_port_not_owned brandHostEx portEx (by decide) (by decide) (by decide)⟩

/-- C10: every element of `extract_mentions text brand` is the brand string
itself; the escaped pattern matches the brand literally. -/
theorem C10_mentions_exact (text brand : String) :
    ∀ x ∈ extract_mentions text brand, x = brand := by
  intro x hx
  unfold extract_mentions at hx
  by_cases hb : strFalsy brand = true
  · rw [if_pos hb] at hx
    simp at hx
  · rw [if_neg hb] at hx
    obtain ⟨l, hl, rfl⟩ := List.mem_map.mp hx
    have hlb : l = brand.data := mentionScanF_mem brand.data _ _ _ _ hl
    rw [hlb]

theorem C10_witness :
    brandAcme ∈ extract_mentions mentionText brandAcme ∧ brandAcme = brandAcme :=
  ⟨by decide, C10_mentions_exact mentionText brandAcme brandAcme (by decide)⟩

end Gander
